import Mathlib

set_option linter.unusedSectionVars false

/-!
Formal model of the geo-scraper core: the reliable queue
(src/queue_manager.py), the spatial partitioner (src/geo_utils.py) and the
worker orchestration (src/worker.py), with theorems settling the
specification's claims about them.
-/

namespace GeoScraper

/-!
## Reliable queue (src/queue_manager.py)

Tasks travel through Redis as JSON strings; we model them as an arbitrary
type with decidable equality.  The pending and processing queues are Redis
lists; we orient each Lean list so that its head is the RPOP end (the
oldest element) and LPUSH appends at the tail of the Lean list.  Under
this orientation RPOPLPUSH pops the head of pending and appends it at the
tail of processing.  The `tasks:processing:meta` hash is an association
list with unique keys; timestamps are rationals standing for
`time.time()` values.
-/

variable {α : Type} [DecidableEq α]

structure QState (α : Type) where
  pending : List α
  processing : List α
  meta : List (α × ℚ)
deriving DecidableEq

def emptyQ : QState α := ⟨[], [], []⟩

/-- Redis HSET: overwrite the value when the key is present, insert otherwise. -/
def hset (l : List (α × ℚ)) (k : α) (v : ℚ) : List (α × ℚ) :=
  if l.any (fun e => decide (e.1 = k)) then
    l.map (fun e => if e.1 = k then (k, v) else e)
  else (k, v) :: l

/-- Redis HDEL: drop the entry with the given key. -/
def hdel (l : List (α × ℚ)) (k : α) : List (α × ℚ) :=
  l.filter (fun e => decide (e.1 ≠ k))

/-- `QueueManager.push_task`: LPUSH onto the pending list. -/
def push_task (s : QState α) (t : α) : QState α :=
  { s with pending := s.pending ++ [t] }

/-- `QueueManager.pop_task`: the Lua script RPOPLPUSH + HSET.  Returns the
updated state together with the claimed task, if any. -/
def pop_task (s : QState α) (now : ℚ) : QState α × Option α :=
  match s.pending with
  | [] => (s, none)
  | t :: rest =>
    (⟨rest, s.processing ++ [t], hset s.meta t now⟩, some t)

/-- `QueueManager.complete_task`: LREM with count 0 (drop every matching
occurrence) on processing, then HDEL on the meta hash. -/
def complete_task (s : QState α) (t : α) : QState α :=
  { s with
    processing := s.processing.filter (fun u => decide (u ≠ t)),
    meta := hdel s.meta t }

/-- One iteration of the `QueueManager.janitor` loop body for a meta entry
`e`: when `now - start > timeout` the pipeline runs LREM (count 0) on
processing, HDEL on meta and LPUSH on pending, and the recovered counter
grows only when LREM removed at least one element. -/
def janitorStep (timeout now : ℚ) (acc : QState α × ℕ) (e : α × ℚ) :
    QState α × ℕ :=
  if timeout < now - e.2 then
    let removed := acc.1.processing.count e.1
    (⟨acc.1.pending ++ [e.1],
      acc.1.processing.filter (fun u => decide (u ≠ e.1)),
      hdel acc.1.meta e.1⟩,
     if 0 < removed then acc.2 + 1 else acc.2)
  else acc

/-- `QueueManager.janitor`: HGETALL the meta hash, then fold the recovery
step over the snapshot.  Returns the final state and the recovered count. -/
def janitor (s : QState α) (timeout now : ℚ) : QState α × ℕ :=
  s.meta.foldl (janitorStep timeout now) (s, 0)

/-- The staleness test of the janitor loop body:
`current_time - float(start_time) > timeout_seconds`. -/
def staleB (timeout now : ℚ) (e : α × ℚ) : Bool := decide (timeout < now - e.2)

/-- The janitor fold over a snapshot of meta entries, for reasoning about
`janitor` by induction on the snapshot. -/
def janitorFold (timeout now : ℚ) (R : List (α × ℚ)) (st : QState α) (c : ℕ) :
    QState α × ℕ :=
  R.foldl (janitorStep timeout now) (st, c)

/-- The externally visible queue operations of `QueueManager`. -/
inductive Op (α : Type) where
  | enqueue (t : α)
  | claim (now : ℚ)
  | complete (t : α)
  | recover (timeout now : ℚ)
deriving DecidableEq

def step (s : QState α) : Op α → QState α
  | .enqueue t => push_task s t
  | .claim now => (pop_task s now).1
  | .complete t => complete_task s t
  | .recover timeout now => (janitor s timeout now).1

def run (s : QState α) (ops : List (Op α)) : QState α :=
  ops.foldl step s

/-- A task is somewhere in the logical queue. -/
def present (s : QState α) (t : α) : Prop :=
  t ∈ s.pending ∨ t ∈ s.processing

/-- The admissibility guard for a single operation: a task is only
enqueued while no structurally equal task is already present. -/
def opGuard (s : QState α) : Op α → Bool
  | .enqueue t => decide (t ∉ s.pending) && decide (t ∉ s.processing)
  | _ => true

/-- Admissibility of an operation sequence: every enqueue passes
`opGuard` in the state it executes in.  (The spec only promises the
queue invariant "under normal operation"; duplicate-content tasks are
flagged as a structural risk in its design notes.) -/
def admissibleChk (s : QState α) : List (Op α) → Bool
  | [] => true
  | op :: ops => opGuard s op && admissibleChk (step s op) ops

/-- The meta-hash part of the queue invariant: unique keys, and the key
set coincides with the set of in-flight tasks. -/
def MetaInv (s : QState α) : Prop :=
  (s.meta.map Prod.fst).Nodup ∧
  (∀ t ∈ s.processing, t ∈ s.meta.map Prod.fst) ∧
  (∀ t ∈ s.meta.map Prod.fst, t ∈ s.processing)

/-- The full queue invariant: no task occurs twice across pending and
processing, and the meta hash indexes exactly the in-flight tasks. -/
def Inv (s : QState α) : Prop :=
  (s.pending ++ s.processing).Nodup ∧ MetaInv s

/-!
## Spatial partitioner (src/geo_utils.py)

The Python file computes with IEEE doubles; we model the arithmetic over
the real numbers, `math.sqrt`, `math.cos`, `math.log2`, `math.radians`,
`math.ceil` and `math.floor` becoming their exact counterparts.
-/

noncomputable section

/-- `math.radians`: degrees to radians. -/
def radians (x : ℝ) : ℝ := x * Real.pi / 180

/-- `calculate_circumscribed_radius`: `math.ceil((width * math.sqrt 2) / 2)`. -/
def calculate_circumscribed_radius (width_meters : ℝ) : ℤ :=
  ⌈width_meters * Real.sqrt 2 / 2⌉

/-- `calculate_zoom_level`: the two degenerate guards and the algebraic
`math.floor (math.log2 (circumference / desired_width))` path. -/
def calculate_zoom_level (radius_meters lat : ℝ) : ℤ :=
  if radius_meters ≤ 0 then 21
  else
    let circumference := 40075000 * Real.cos (radians lat)
    let desired_width := 2 * radius_meters
    if desired_width ≤ 0 then 21
    else ⌊Real.logb 2 (circumference / desired_width)⌋

/-- `split_square`: halve the width, convert the quarter-width offset to
degrees with the equirectangular approximation, return the four quadrant
sub-squares as `(lat, lng, width)` triples. -/
def split_square (lat lng width_meters : ℝ) : List (ℝ × ℝ × ℝ) :=
  let new_width := width_meters / 2
  let offset := new_width / 2
  let lat_offset := offset / 111000
  let lng_offset := offset / (111000 * Real.cos (radians lat))
  [(lat + lat_offset, lng + lng_offset, new_width),
   (lat + lat_offset, lng - lng_offset, new_width),
   (lat - lat_offset, lng + lng_offset, new_width),
   (lat - lat_offset, lng - lng_offset, new_width)]

end

/-!
## Worker orchestration (src/worker.py)

`process_task` drives one claimed task through the provider round-trip
and the split / persist / drop decision.  We model the provider round
trip by the task id that `post_task` returned (or `none` on failure) and
by the sequence of `task_get` responses, and we record the worker's
externally visible effects: the sub-tasks it enqueues, the
`save_business` upserts it issues, and how often it completes the
original task.  `process_task` never inspects a result item — it only
counts them and forwards them — so the model is polymorphic in the item
type.
-/

/-- A queue task as built in `process_task`/`main.py`:
lat, lng, width, keyword. -/
structure GeoTask where
  lat : ℝ
  lng : ℝ
  width : ℝ
  keyword : String

/-- One `task_get` response, as discriminated by `get_task_result`:
outer status not 20000; inner status 20000 carrying `result` (a list of
result objects, each with or without an `items` list); inner status
40602 (still in progress); any other inner status (terminal failure); or
a raised exception. -/
inductive PollResp (I : Type) where
  | outerErr
  | taskOk (result : List (Option (List I)))
  | inProgress
  | taskFail
  | netErr

/-- The poll loop of `get_task_result`: at most `fuel` attempts remain
and the next attempt reads response `i`. -/
def getTaskResultAux (f : ℕ → PollResp I) : ℕ → ℕ → Option (List (Option (List I)))
  | 0, _ => none
  | fuel + 1, i =>
    match f i with
    | .taskOk r => some r
    | .outerErr => none
    | .taskFail => none
    | .inProgress => getTaskResultAux f fuel (i + 1)
    | .netErr => getTaskResultAux f fuel (i + 1)

/-- `get_task_result` (src/worker.py): poll with `max_retries = 20`,
returning the result list on success and `None` otherwise. -/
def get_task_result (f : ℕ → PollResp I) : Option (List (Option (List I))) :=
  getTaskResultAux f 20 0

/-- `items = []; for res_obj in results_list: if 'items' in res_obj:
items.extend(res_obj['items'])`. -/
def collectItems (results : List (Option (List I))) : List I :=
  results.foldl (fun acc r => match r with | some l => acc ++ l | none => acc) []

/-- The externally visible effects of one `process_task` call: sub-tasks
pushed with `queue.push_task`, `save_business(item, keyword)` calls, and
the number of `queue.complete_task(task)` calls on the original task. -/
structure WorkerEffects (I : Type) where
  pushes : List GeoTask
  upserts : List (I × String)
  completes : ℕ

noncomputable section

/-- `process_task` (src/worker.py): on submission failure complete; on
poll failure complete; otherwise with `count = len(items)`: split into
the four `split_square` sub-tasks when `count >= 100`, save every item
under the task's keyword when `count > 0`, do nothing when `count = 0`;
in every branch finally complete the original task once. -/
def process_task (task : GeoTask) (submit : Option String)
    (f : ℕ → PollResp I) : WorkerEffects I :=
  match submit with
  | none => ⟨[], [], 1⟩
  | some _ =>
    match get_task_result f with
    | none => ⟨[], [], 1⟩
    | some results =>
      let items := collectItems results
      let count := items.length
      if 100 ≤ count then
        ⟨(split_square task.lat task.lng task.width).map
            (fun q => ⟨q.1, q.2.1, q.2.2, task.keyword⟩), [], 1⟩
      else if 0 < count then
        ⟨[], items.map (fun i => (i, task.keyword)), 1⟩
      else
        ⟨[], [], 1⟩

end

/-! ## Theorems about the spatial partitioner -/

/-- C7: `calculate_zoom_level` is total on its degenerate inputs: every
radius `r ≤ 0`, at any latitude, yields the maximum zoom level 21, and so
does every input whose desired viewport width `2 * r` is non-positive;
the algebraic log2 path is unreachable on such inputs. -/
theorem zoom_level_degenerate :
    (∀ r lat : ℝ, r ≤ 0 → calculate_zoom_level r lat = 21) ∧
    (∀ r lat : ℝ, 2 * r ≤ 0 → calculate_zoom_level r lat = 21) := by
  have h : ∀ r lat : ℝ, r ≤ 0 → calculate_zoom_level r lat = 21 := by
    intro r lat hr
    rw [calculate_zoom_level, if_pos hr]
  exact ⟨h, fun r lat hr => h r lat (by linarith)⟩

/-- Witness for C7 at concrete degenerate radii. -/
theorem zoom_level_degenerate_witness :
    calculate_zoom_level (-5) 48 = 21 ∧ calculate_zoom_level 0 3 = 21 ∧
      calculate_zoom_level (-1 / 2) 90 = 21 :=
  ⟨zoom_level_degenerate.1 (-5) 48 (by norm_num),
   zoom_level_degenerate.1 0 3 (by norm_num),
   zoom_level_degenerate.2 (-1 / 2) 90 (by norm_num)⟩

/-- C8: for positive widths, `calculate_circumscribed_radius` computes
`ceil (w * sqrt 2 / 2)` and is monotonically non-decreasing. -/
theorem circumscribed_radius_spec :
    (∀ w : ℝ, 0 < w →
      calculate_circumscribed_radius w = ⌈w * Real.sqrt 2 / 2⌉) ∧
    (∀ w₁ w₂ : ℝ, 0 < w₁ → w₁ ≤ w₂ →
      calculate_circumscribed_radius w₁ ≤ calculate_circumscribed_radius w₂) := by
  refine ⟨fun w _ => rfl, fun w₁ w₂ h₁ h₂ => Int.ceil_le_ceil ?_⟩
  have hs : (0 : ℝ) ≤ Real.sqrt 2 := Real.sqrt_nonneg 2
  have := mul_le_mul_of_nonneg_right h₂ hs
  linarith

/-- Witness for C8 at concrete widths. -/
theorem circumscribed_radius_spec_witness :
    calculate_circumscribed_radius 3 = ⌈(3 : ℝ) * Real.sqrt 2 / 2⌉ ∧
      calculate_circumscribed_radius 3 ≤ calculate_circumscribed_radius 5 :=
  ⟨circumscribed_radius_spec.1 3 (by norm_num),
   circumscribed_radius_spec.2 3 5 (by norm_num) (by norm_num)⟩

/-- C9: for any center with nonzero latitude cosine, `split_square`
returns exactly 4 sub-squares of half the input width whose centers are
the four quadrant offsets of the input center, so the mean of the four
centers is the input center. -/
theorem split_square_spec (lat lng width : ℝ)
    (_hcos : Real.cos (radians lat) ≠ 0) :
    ∃ dlat dlng : ℝ,
      split_square lat lng width =
        [(lat + dlat, lng + dlng, width / 2),
         (lat + dlat, lng - dlng, width / 2),
         (lat - dlat, lng + dlng, width / 2),
         (lat - dlat, lng - dlng, width / 2)] ∧
      (split_square lat lng width).length = 4 ∧
      (∀ p ∈ split_square lat lng width, p.2.2 = width / 2) ∧
      ((split_square lat lng width).map (fun p => p.1)).sum / 4 = lat ∧
      ((split_square lat lng width).map (fun p => p.2.1)).sum / 4 = lng := by
  refine ⟨width / 2 / 2 / 111000,
    width / 2 / 2 / (111000 * Real.cos (radians lat)), rfl, rfl, ?_, ?_, ?_⟩
  · intro p hp
    simp only [split_square, List.mem_cons, List.not_mem_nil, or_false] at hp
    rcases hp with h | h | h | h <;> subst h <;> rfl
  · simp only [split_square, List.map_cons, List.map_nil, List.sum_cons,
      List.sum_nil]
    ring
  · simp only [split_square, List.map_cons, List.map_nil, List.sum_cons,
      List.sum_nil]
    ring

/-- Witness for C9 at the equator, where the latitude cosine is 1. -/
theorem split_square_spec_witness :
    ∃ dlat dlng : ℝ,
      split_square 0 7 20000 =
        [(0 + dlat, 7 + dlng, 20000 / 2),
         (0 + dlat, 7 - dlng, 20000 / 2),
         (0 - dlat, 7 + dlng, 20000 / 2),
         (0 - dlat, 7 - dlng, 20000 / 2)] ∧
      (split_square 0 7 20000).length = 4 ∧
      (∀ p ∈ split_square 0 7 20000, p.2.2 = 20000 / 2) ∧
      ((split_square 0 7 20000).map (fun p => p.1)).sum / 4 = 0 ∧
      ((split_square 0 7 20000).map (fun p => p.2.1)).sum / 4 = 7 :=
  split_square_spec 0 7 20000 (by simp [radians])

/-- C10: the algebraic path of `calculate_zoom_level` is uncapped: at a
positive radius and the equator it returns a value strictly above the
"maximum" zoom level 21. -/
theorem zoom_level_uncapped :
    ∃ r lat : ℝ, 0 < r ∧ 21 < calculate_zoom_level r lat := by
  refine ⟨1, 0, one_pos, ?_⟩
  have hcos : Real.cos (radians 0) = 1 := by simp [radians]
  have harg : (40075000 : ℝ) * Real.cos (radians 0) / (2 * 1) = 20037500 := by
    rw [hcos]; norm_num
  have hz : calculate_zoom_level 1 0 = ⌊Real.logb 2 (20037500 : ℝ)⌋ := by
    rw [calculate_zoom_level, if_neg (by norm_num), if_neg (by norm_num), harg]
  have h22 : (22 : ℝ) ≤ Real.logb 2 20037500 := by
    rw [Real.le_logb_iff_rpow_le (by norm_num) (by norm_num)]
    have h4 : (2 : ℝ) ^ (22 : ℝ) = 4194304 := by
      rw [show (22 : ℝ) = ((22 : ℕ) : ℝ) by norm_num, Real.rpow_natCast]
      norm_num
    rw [h4]; norm_num
  have hf : (22 : ℤ) ≤ ⌊Real.logb 2 (20037500 : ℝ)⌋ :=
    Int.le_floor.mpr (by exact_mod_cast h22)
  omega

/-! ## Theorems about the worker orchestration -/

/-- The poll loop never reads past the first `fuel` responses. -/
theorem getTaskResultAux_congr {I : Type} (f g : ℕ → PollResp I) :
    ∀ (fuel i : ℕ), (∀ j < fuel, f (i + j) = g (i + j)) →
      getTaskResultAux f fuel i = getTaskResultAux g fuel i := by
  intro fuel
  induction fuel with
  | zero => intro i _; rfl
  | succ fuel ih =>
    intro i hagree
    have h0 : f i = g i := by simpa using hagree 0 (Nat.succ_pos fuel)
    have hrest : ∀ j < fuel, f (i + 1 + j) = g (i + 1 + j) := by
      intro j hj
      have := hagree (j + 1) (by omega)
      simpa [Nat.add_assoc, Nat.add_comm 1 j] using this
    rw [getTaskResultAux, getTaskResultAux, h0]
    cases g i <;> simp only [] <;> first | rfl | exact ih (i + 1) hrest

/-- Transient responses (in-progress, network exception) exhaust the
poll budget: if every consulted response is transient the loop returns
`none`. -/
theorem getTaskResultAux_none_of_transient {I : Type} (f : ℕ → PollResp I) :
    ∀ (fuel i : ℕ),
      (∀ j < fuel, f (i + j) = .inProgress ∨ f (i + j) = .netErr) →
      getTaskResultAux f fuel i = none := by
  intro fuel
  induction fuel with
  | zero => intro i _; rfl
  | succ fuel ih =>
    intro i htr
    have h0 : f i = .inProgress ∨ f i = .netErr := by
      simpa using htr 0 (Nat.succ_pos fuel)
    have hrest : ∀ j < fuel, f (i + 1 + j) = .inProgress ∨ f (i + 1 + j) = .netErr := by
      intro j hj
      have := htr (j + 1) (by omega)
      simpa [Nat.add_assoc, Nat.add_comm 1 j] using this
    rcases h0 with h0 | h0 <;>
      · rw [getTaskResultAux, h0]
        exact ih (i + 1) hrest

/-- A terminal-failure response inside the budget, preceded only by
transient responses, makes the loop return `none`. -/
theorem getTaskResultAux_none_of_fail {I : Type} (f : ℕ → PollResp I) :
    ∀ (fuel i k : ℕ), k < fuel →
      (∀ j < k, f (i + j) = .inProgress ∨ f (i + j) = .netErr) →
      (f (i + k) = .taskFail ∨ f (i + k) = .outerErr) →
      getTaskResultAux f fuel i = none := by
  intro fuel
  induction fuel with
  | zero => intro i k hk; omega
  | succ fuel ih =>
    intro i k hk htr hfail
    cases k with
    | zero =>
      rcases hfail with h0 | h0 <;> simp only [Nat.add_zero] at h0 <;>
        rw [getTaskResultAux, h0]
    | succ k =>
      have h0 : f i = .inProgress ∨ f i = .netErr := by
        simpa using htr 0 (Nat.succ_pos k)
      have hrest : ∀ j < k, f (i + 1 + j) = .inProgress ∨ f (i + 1 + j) = .netErr := by
        intro j hj
        have := htr (j + 1) (by omega)
        simpa [Nat.add_assoc, Nat.add_comm 1 j] using this
      have hfail1 : f (i + 1 + k) = .taskFail ∨ f (i + 1 + k) = .outerErr := by
        have h := hfail
        rw [show i + (k + 1) = i + 1 + k by omega] at h
        exact h
      rcases h0 with h0 | h0 <;>
        · rw [getTaskResultAux, h0]
          exact ih (i + 1) k (by omega) hrest hfail1

/-- C6: every failure path drops the task: a failed submission, an
exhausted poll budget (20 attempts of transient responses), or a
terminal-failure response all complete the task with no split and no
persist; and the poll loop only ever consults the first 20 responses, so
it terminates within the fixed attempt bound. -/
theorem process_task_drop {I : Type} :
    (∀ (task : GeoTask) (f : ℕ → PollResp I),
      process_task task none f = ⟨[], [], 1⟩) ∧
    (∀ (task : GeoTask) (tid : String) (f : ℕ → PollResp I),
      (∀ i < 20, f i = .inProgress ∨ f i = .netErr) →
      get_task_result f = none ∧ process_task task (some tid) f = ⟨[], [], 1⟩) ∧
    (∀ (task : GeoTask) (tid : String) (f : ℕ → PollResp I) (k : ℕ), k < 20 →
      (∀ j < k, f j = .inProgress ∨ f j = .netErr) →
      (f k = .taskFail ∨ f k = .outerErr) →
      get_task_result f = none ∧ process_task task (some tid) f = ⟨[], [], 1⟩) ∧
    (∀ f g : ℕ → PollResp I, (∀ i < 20, f i = g i) →
      get_task_result f = get_task_result g) := by
  refine ⟨fun task f => rfl, ?_, ?_, ?_⟩
  · intro task tid f htr
    have hnone : get_task_result f = none :=
      getTaskResultAux_none_of_transient f 20 0 (by simpa using htr)
    exact ⟨hnone, by simp [process_task, hnone]⟩
  · intro task tid f k hk htr hfail
    have hnone : get_task_result f = none :=
      getTaskResultAux_none_of_fail f 20 0 k hk (by simpa using htr)
        (by simpa using hfail)
    exact ⟨hnone, by simp [process_task, hnone]⟩
  · intro f g hagree
    exact getTaskResultAux_congr f g 20 0 (by simpa using hagree)

/-- Witness for C6: a dropped submission, an always-in-progress provider,
an immediately failing provider, and the attempt bound, all at concrete
inputs. -/
theorem process_task_drop_witness :
    process_task (I := ℕ) ⟨0, 0, 1, "k"⟩ none (fun _ => .inProgress) = ⟨[], [], 1⟩ ∧
    get_task_result (I := ℕ) (fun _ => .inProgress) = none ∧
    process_task (I := ℕ) ⟨0, 0, 1, "k"⟩ (some "t") (fun _ => .inProgress) = ⟨[], [], 1⟩ ∧
    get_task_result (I := ℕ) (fun i => if i = 0 then .taskFail else .inProgress) = none ∧
    get_task_result (I := ℕ) (fun _ => .inProgress) =
      get_task_result (I := ℕ) (fun i => if i < 20 then .inProgress else .taskFail) := by
  have h2 := (process_task_drop (I := ℕ)).2.1 ⟨0, 0, 1, "k"⟩ "t"
    (fun _ => .inProgress) (fun i _ => Or.inl rfl)
  refine ⟨(process_task_drop (I := ℕ)).1 ⟨0, 0, 1, "k"⟩ _, h2.1, h2.2, ?_, ?_⟩
  · exact ((process_task_drop (I := ℕ)).2.2.1 ⟨0, 0, 1, "k"⟩ "t" _ 0 (by norm_num)
      (fun j hj => absurd hj (Nat.not_lt_zero j)) (Or.inl rfl)).1
  · exact (process_task_drop (I := ℕ)).2.2.2 _ _
      (fun i hi => by simp [hi])

/-- C3: a successful provider round-trip returning at least 100 items
splits: the worker enqueues exactly 4 sub-tasks, each keeping the
parent's keyword and halving its width, and persists nothing (and still
completes the task once). -/
theorem process_task_split {I : Type} (task : GeoTask) (tid : String)
    (f : ℕ → PollResp I) (results : List (Option (List I)))
    (hpoll : get_task_result f = some results)
    (hN : 100 ≤ (collectItems results).length) :
    (process_task task (some tid) f).pushes.length = 4 ∧
    (∀ p ∈ (process_task task (some tid) f).pushes,
      p.keyword = task.keyword ∧ p.width = task.width / 2) ∧
    (process_task task (some tid) f).upserts = [] ∧
    (process_task task (some tid) f).completes = 1 := by
  simp only [process_task, hpoll]
  rw [if_pos hN]
  refine ⟨by simp [split_square], ?_, rfl, rfl⟩
  intro p hp
  simp only [split_square, List.map_cons, List.map_nil, List.mem_cons,
    List.not_mem_nil, or_false] at hp
  rcases hp with h | h | h | h <;> subst h <;> exact ⟨rfl, rfl⟩

/-- Witness for C3: end-to-end scenario A — the gym task of width 20000
with a 150-item response enqueues exactly 4 tasks of width 10000, and
persists none of them. -/
theorem process_task_split_witness :
    (process_task (I := ℕ) ⟨51.5, -0.1, 20000, "gym"⟩ (some "tid")
        (fun _ => .taskOk [some (List.replicate 150 0)])).pushes.length = 4 ∧
    (∀ p ∈ (process_task (I := ℕ) ⟨51.5, -0.1, 20000, "gym"⟩ (some "tid")
        (fun _ => .taskOk [some (List.replicate 150 0)])).pushes,
      p.keyword = "gym" ∧ p.width = 10000) ∧
    (process_task (I := ℕ) ⟨51.5, -0.1, 20000, "gym"⟩ (some "tid")
        (fun _ => .taskOk [some (List.replicate 150 0)])).upserts = [] := by
  have h := process_task_split (I := ℕ) ⟨51.5, -0.1, 20000, "gym"⟩ "tid"
    (fun _ => .taskOk [some (List.replicate 150 0)]) [some (List.replicate 150 0)]
    rfl (by simp [collectItems])
  refine ⟨h.1, fun p hp => ?_, h.2.2.1⟩
  obtain ⟨hk, hw⟩ := h.2.1 p hp
  refine ⟨hk, ?_⟩
  rw [hw]
  norm_num

/-- C5: a successful provider round-trip with fewer than 100 items
persists exactly the returned items, each upsert attributed to the
task's keyword, with no split; with zero items nothing is upserted and
nothing split; and every branch of `process_task` completes the task
exactly once. -/
theorem process_task_persist {I : Type} (task : GeoTask) (tid : String)
    (f : ℕ → PollResp I) (results : List (Option (List I)))
    (hpoll : get_task_result f = some results) :
    ((collectItems results).length < 100 →
      (process_task task (some tid) f).upserts =
        (collectItems results).map (fun i => (i, task.keyword)) ∧
      (process_task task (some tid) f).upserts.length =
        (collectItems results).length ∧
      (∀ u ∈ (process_task task (some tid) f).upserts, u.2 = task.keyword) ∧
      (process_task task (some tid) f).pushes = []) ∧
    ((collectItems results).length = 0 →
      (process_task task (some tid) f).upserts = [] ∧
      (process_task task (some tid) f).pushes = []) ∧
    (∀ (submit : Option String) (g : ℕ → PollResp I),
      (process_task task submit g).completes = 1) := by
  refine ⟨?_, ?_, ?_⟩
  · intro hlt
    simp only [process_task, hpoll]
    rw [if_neg (by omega)]
    by_cases hpos : 0 < (collectItems results).length
    · rw [if_pos hpos]
      refine ⟨rfl, by simp, ?_, rfl⟩
      intro u hu
      simp only [List.mem_map] at hu
      obtain ⟨i, _, rfl⟩ := hu
      rfl
    · rw [if_neg hpos]
      have : collectItems results = [] := by
        cases h : collectItems results with
        | nil => rfl
        | cons a l => rw [h] at hpos; simp at hpos
      simp [this]
  · intro hzero
    simp only [process_task, hpoll]
    rw [if_neg (by omega), if_neg (by omega)]
    exact ⟨rfl, rfl⟩
  · intro submit g
    cases submit with
    | none => rfl
    | some tid2 =>
      simp only [process_task]
      split
      · rfl
      · split
        · rfl
        · split <;> rfl

/-- Witness for C5: end-to-end scenario B — the gym task with a 5-item
response yields exactly 5 upserts, all tagged "gym", no split, and one
completion. -/
theorem process_task_persist_witness :
    (process_task (I := ℕ) ⟨51.5, -0.1, 20000, "gym"⟩ (some "tid")
        (fun _ => .taskOk [some [1, 2, 3, 4, 5]])).upserts =
      [(1, "gym"), (2, "gym"), (3, "gym"), (4, "gym"), (5, "gym")] ∧
    (process_task (I := ℕ) ⟨51.5, -0.1, 20000, "gym"⟩ (some "tid")
        (fun _ => .taskOk [some [1, 2, 3, 4, 5]])).upserts.length = 5 ∧
    (process_task (I := ℕ) ⟨51.5, -0.1, 20000, "gym"⟩ (some "tid")
        (fun _ => .taskOk [some [1, 2, 3, 4, 5]])).pushes = [] ∧
    (process_task (I := ℕ) ⟨51.5, -0.1, 20000, "gym"⟩ (some "tid")
        (fun _ => .taskOk [some [1, 2, 3, 4, 5]])).completes = 1 := by
  have h := process_task_persist (I := ℕ) ⟨51.5, -0.1, 20000, "gym"⟩ "tid"
    (fun _ => .taskOk [some [1, 2, 3, 4, 5]]) [some [1, 2, 3, 4, 5]] rfl
  have h1 := h.1 (by simp [collectItems])
  refine ⟨?_, ?_, h1.2.2.2, h.2.2 (some "tid") _⟩
  · rw [h1.1]
    simp [collectItems]
  · rw [h1.2.1]
    simp [collectItems]

/-! ## Theorems about the reliable queue -/

theorem mem_keys {l : List (α × ℚ)} {t : α} :
    t ∈ l.map Prod.fst ↔ ∃ q, (t, q) ∈ l := by
  simp only [List.mem_map]
  constructor
  · rintro ⟨⟨a, b⟩, hmem, rfl⟩
    exact ⟨b, hmem⟩
  · rintro ⟨q, hq⟩
    exact ⟨(t, q), hq, rfl⟩

theorem hset_not_mem {l : List (α × ℚ)} {k : α} (h : k ∉ l.map Prod.fst) (v : ℚ) :
    hset l k v = (k, v) :: l := by
  rw [hset, if_neg]
  simp only [List.any_eq_true, decide_eq_true_eq]
  simpa using h

theorem mem_hdel {l : List (α × ℚ)} {k : α} {e : α × ℚ} :
    e ∈ hdel l k ↔ e ∈ l ∧ e.1 ≠ k := by
  simp [hdel]

theorem keys_hdel {l : List (α × ℚ)} {k t : α} :
    t ∈ (hdel l k).map Prod.fst ↔ t ∈ l.map Prod.fst ∧ t ≠ k := by
  rw [mem_keys]
  constructor
  · rintro ⟨q, hq⟩
    rw [mem_hdel] at hq
    exact ⟨mem_keys.mpr ⟨q, hq.1⟩, hq.2⟩
  · rintro ⟨hmem, hne⟩
    obtain ⟨q, hq⟩ := mem_keys.mp hmem
    exact ⟨q, mem_hdel.mpr ⟨hq, hne⟩⟩

theorem hdel_sublist (l : List (α × ℚ)) (k : α) : (hdel l k).Sublist l :=
  List.filter_sublist l

theorem keys_nodup_entry_unique {l : List (α × ℚ)} (h : (l.map Prod.fst).Nodup)
    {t : α} {q q' : ℚ} (h1 : (t, q) ∈ l) (h2 : (t, q') ∈ l) : q = q' := by
  induction l with
  | nil => cases h1
  | cons e l ih =>
    rw [List.map_cons, List.nodup_cons] at h
    rcases List.mem_cons.mp h1 with heq1 | h1m
    · rcases List.mem_cons.mp h2 with heq2 | h2m
      · exact ((Prod.ext_iff.mp (heq2.trans heq1.symm)).2).symm
      · exfalso
        rw [← heq1] at h
        exact h.1 (mem_keys.mpr ⟨q', h2m⟩)
    · rcases List.mem_cons.mp h2 with heq2 | h2m
      · exfalso
        rw [← heq2] at h
        exact h.1 (mem_keys.mpr ⟨q, h1m⟩)
      · exact ih h.2 h1m h2m

theorem inv_empty : Inv (emptyQ : QState α) := by
  refine ⟨by simp [emptyQ], by simp [MetaInv, emptyQ]⟩

theorem inv_push {s : QState α} {t : α} (hInv : Inv s)
    (h1 : t ∉ s.pending) (h2 : t ∉ s.processing) : Inv (push_task s t) := by
  obtain ⟨hnd, hm⟩ := hInv
  refine ⟨?_, hm⟩
  show (s.pending ++ [t] ++ s.processing).Nodup
  rw [List.append_assoc, List.singleton_append]
  refine (List.perm_middle.symm).nodup ?_
  rw [List.nodup_cons]
  exact ⟨by simp [h1, h2], hnd⟩

theorem inv_pop {s : QState α} (now : ℚ) (hInv : Inv s) : Inv (pop_task s now).1 := by
  cases hp : s.pending with
  | nil => simpa [pop_task, hp] using hInv
  | cons t rest =>
    obtain ⟨hnd, hk, hpm, hmp⟩ := hInv
    rw [hp] at hnd
    have hnd' : (t :: (rest ++ s.processing)).Nodup := by simpa using hnd
    rw [List.nodup_cons] at hnd'
    have htp : t ∉ s.processing := fun h => hnd'.1 (List.mem_append.mpr (Or.inr h))
    have htk : t ∉ s.meta.map Prod.fst := fun h => htp (hmp t h)
    simp only [pop_task, hp]
    rw [hset_not_mem htk]
    refine ⟨?_, ?_, ?_, ?_⟩
    · have hperm : List.Perm (rest ++ (s.processing ++ [t]))
          (t :: (rest ++ s.processing)) :=
        (List.Perm.append_left rest (List.perm_append_singleton t s.processing)).trans
          List.perm_middle
      exact (hperm.symm).nodup (List.nodup_cons.mpr hnd')
    · rw [List.map_cons]
      exact List.nodup_cons.mpr ⟨htk, hk⟩
    · intro u hu
      rcases List.mem_append.mp hu with h | h
      · exact List.mem_cons_of_mem _ (hpm u h)
      · rw [List.mem_singleton] at h
        subst h
        exact List.mem_cons_self _ _
    · intro u hu
      rcases List.mem_cons.mp hu with h | h
      · subst h
        exact List.mem_append.mpr (Or.inr (List.mem_singleton.mpr rfl))
      · exact List.mem_append.mpr (Or.inl (hmp u h))

theorem inv_complete {s : QState α} (t : α) (hInv : Inv s) :
    Inv (complete_task s t) := by
  obtain ⟨hnd, hk, hpm, hmp⟩ := hInv
  refine ⟨?_, ?_, ?_, ?_⟩
  · exact List.Nodup.sublist
      ((List.Sublist.refl s.pending).append (List.filter_sublist s.processing)) hnd
  · exact List.Nodup.sublist ((hdel_sublist s.meta t).map Prod.fst) hk
  · intro u hu
    simp only [complete_task, List.mem_filter, decide_eq_true_eq] at hu
    exact keys_hdel.mpr ⟨hpm u hu.1, hu.2⟩
  · intro u hu
    obtain ⟨h1, h2⟩ := keys_hdel.mp hu
    exact List.mem_filter.mpr ⟨hmp u h1, decide_eq_true h2⟩

theorem janitorFold_cons_stale (timeout now : ℚ) (e : α × ℚ) (R : List (α × ℚ))
    (st : QState α) (c : ℕ) (hst : timeout < now - e.2)
    (hmem : e.1 ∈ st.processing) :
    janitorFold timeout now (e :: R) st c =
      janitorFold timeout now R
        ⟨st.pending ++ [e.1],
         st.processing.filter (fun u => decide (u ≠ e.1)),
         hdel st.meta e.1⟩ (c + 1) := by
  have hremoved : 0 < st.processing.count e.1 := List.count_pos_iff.mpr hmem
  have hstep : janitorStep timeout now (st, c) e =
      (⟨st.pending ++ [e.1], st.processing.filter (fun u => decide (u ≠ e.1)),
        hdel st.meta e.1⟩, c + 1) := by
    rw [janitorStep, if_pos hst]
    show (_, if 0 < st.processing.count e.1 then c + 1 else c) = _
    rw [if_pos hremoved]
  show List.foldl (janitorStep timeout now) (janitorStep timeout now (st, c) e) R = _
  rw [hstep]
  rfl

theorem janitorFold_cons_fresh (timeout now : ℚ) (e : α × ℚ) (R : List (α × ℚ))
    (st : QState α) (c : ℕ) (hst : ¬ timeout < now - e.2) :
    janitorFold timeout now (e :: R) st c = janitorFold timeout now R st c := by
  show List.foldl (janitorStep timeout now) (janitorStep timeout now (st, c) e) R = _
  rw [janitorStep, if_neg hst]
  rfl

theorem mem_staleKeys_sub {R : List (α × ℚ)} {timeout now : ℚ} {t : α}
    (h : t ∈ (R.filter (staleB timeout now)).map Prod.fst) :
    t ∈ R.map Prod.fst := by
  obtain ⟨e, he, rfl⟩ := List.mem_map.mp h
  exact List.mem_map.mpr ⟨e, (List.mem_filter.mp he).1, rfl⟩

/-- Characterization of the janitor fold over a snapshot `R` of meta
entries with pairwise distinct keys that are all present in the current
meta hash: stale entries are each requeued to pending exactly once and
purged from processing and from the meta hash, fresh entries and
unrelated tasks are untouched, the returned counter counts the stale
entries, the meta-hash invariant is preserved, and processing and meta
only ever shrink. -/
theorem janitorFold_spec (timeout now : ℚ) :
    ∀ (R : List (α × ℚ)) (st : QState α) (c : ℕ),
      (R.map Prod.fst).Nodup →
      (∀ e ∈ R, e ∈ st.meta) →
      MetaInv st →
      (janitorFold timeout now R st c).2 = c + R.countP (staleB timeout now) ∧
      (∀ t, t ∉ (R.filter (staleB timeout now)).map Prod.fst →
        (janitorFold timeout now R st c).1.pending.count t = st.pending.count t ∧
        (t ∈ (janitorFold timeout now R st c).1.processing ↔ t ∈ st.processing) ∧
        (∀ q, (t, q) ∈ (janitorFold timeout now R st c).1.meta ↔ (t, q) ∈ st.meta)) ∧
      (∀ e ∈ R, staleB timeout now e = true →
        (janitorFold timeout now R st c).1.pending.count e.1 =
          st.pending.count e.1 + 1 ∧
        e.1 ∉ (janitorFold timeout now R st c).1.processing ∧
        e.1 ∉ (janitorFold timeout now R st c).1.meta.map Prod.fst) ∧
      MetaInv (janitorFold timeout now R st c).1 ∧
      (janitorFold timeout now R st c).1.processing.Sublist st.processing ∧
      (janitorFold timeout now R st c).1.meta.Sublist st.meta ∧
      (∀ t, t ∈ (janitorFold timeout now R st c).1.pending →
        t ∈ st.pending ∨ t ∈ (R.filter (staleB timeout now)).map Prod.fst) := by
  intro R
  induction R with
  | nil =>
    intro st c _ _ hmi
    exact ⟨by simp [janitorFold], fun t _ => ⟨rfl, Iff.rfl, fun q => Iff.rfl⟩,
      by simp, hmi, List.Sublist.refl _, List.Sublist.refl _,
      fun t ht => Or.inl ht⟩
  | cons e R ih =>
    intro st c hndk hmem hmi
    have hemem : e ∈ st.meta := hmem e (List.mem_cons_self e R)
    rw [List.map_cons, List.nodup_cons] at hndk
    by_cases hst : timeout < now - e.2
    · -- stale head: the entry is recovered now
      have hsb : staleB timeout now e = true := decide_eq_true hst
      have hep : e.1 ∈ st.processing := hmi.2.2 e.1 (mem_keys.mpr ⟨e.2, hemem⟩)
      have hfold := janitorFold_cons_stale timeout now e R st c hst hep
      have hmem' : ∀ e' ∈ R,
          e' ∈ (hdel st.meta e.1 : List (α × ℚ)) := by
        intro e' he'
        refine mem_hdel.mpr ⟨hmem e' (List.mem_cons_of_mem e he'), ?_⟩
        intro hfst
        exact hndk.1 (hfst ▸ List.mem_map.mpr ⟨e', he', rfl⟩)
      have hmi' : MetaInv ⟨st.pending ++ [e.1],
          st.processing.filter (fun u => decide (u ≠ e.1)), hdel st.meta e.1⟩ := by
        refine ⟨List.Nodup.sublist ((hdel_sublist st.meta e.1).map Prod.fst) hmi.1,
          ?_, ?_⟩
        · intro u hu
          simp only [List.mem_filter, decide_eq_true_eq] at hu
          exact keys_hdel.mpr ⟨hmi.2.1 u hu.1, hu.2⟩
        · intro u hu
          obtain ⟨h1, h2⟩ := keys_hdel.mp hu
          exact List.mem_filter.mpr ⟨hmi.2.2 u h1, decide_eq_true h2⟩
      obtain ⟨ihc, ihfresh, ihstale, ihmi, ihsubp, ihsubm, ihpend⟩ :=
        ih ⟨st.pending ++ [e.1],
          st.processing.filter (fun u => decide (u ≠ e.1)), hdel st.meta e.1⟩
          (c + 1) hndk.2 hmem' hmi'
      rw [hfold, List.countP_cons_of_pos _ _ hsb, List.filter_cons_of_pos hsb]
      have hd1 : e.1 ∉ (R.filter (staleB timeout now)).map Prod.fst :=
        fun h => hndk.1 (mem_staleKeys_sub h)
      refine ⟨by rw [ihc]; omega, ?_, ?_, ihmi,
        ihsubp.trans (List.filter_sublist _),
        ihsubm.trans (hdel_sublist _ _), ?_⟩
      · -- tasks outside the stale keys are untouched
        intro t ht
        simp only [List.map_cons, List.mem_cons, not_or] at ht
        obtain ⟨hne, hni⟩ := ht
        obtain ⟨hc1, hc2, hc3⟩ := ihfresh t hni
        refine ⟨?_, ?_, ?_⟩
        · rw [hc1]
          simp only [List.count_append]
          have : List.count t [e.1] = 0 :=
            List.count_eq_zero.mpr (by simp [hne])
          omega
        · rw [hc2]
          simp only [List.mem_filter, decide_eq_true_eq]
          exact ⟨fun h => h.1, fun h => ⟨h, hne⟩⟩
        · intro q
          rw [hc3 q, mem_hdel]
          exact ⟨fun h => h.1, fun h => ⟨h, hne⟩⟩
      · -- stale entries end up requeued exactly once and purged
        intro e' he' hsb'
        rcases List.mem_cons.mp he' with heq | he'm
        · rw [heq]
          obtain ⟨hc1, hc2, hc3⟩ := ihfresh e.1 hd1
          refine ⟨?_, ?_, ?_⟩
          · rw [hc1]
            simp only [List.count_append]
            have : List.count e.1 [e.1] = 1 := by simp
            omega
          · rw [hc2]
            simp only [List.mem_filter, decide_eq_true_eq]
            intro h
            exact h.2 rfl
          · intro hkm
            obtain ⟨q, hq⟩ := mem_keys.mp hkm
            exact (mem_hdel.mp ((hc3 q).mp hq)).2 rfl
        · have hne : e'.1 ≠ e.1 :=
            fun h => hndk.1 (h ▸ List.mem_map.mpr ⟨e', he'm, rfl⟩)
          obtain ⟨hc1, hc2, hc3⟩ := ihstale e' he'm hsb'
          refine ⟨?_, hc2, hc3⟩
          rw [hc1]
          simp only [List.count_append]
          have : List.count e'.1 [e.1] = 0 :=
            List.count_eq_zero.mpr (by simp [hne])
          omega
      · -- pending only gains stale keys
        intro t ht
        rcases ihpend t ht with h | h
        · rcases List.mem_append.mp h with h | h
          · exact Or.inl h
          · rw [List.mem_singleton] at h
            exact Or.inr (List.mem_map.mpr ⟨e, List.mem_cons_self _ _, h.symm⟩)
        · exact Or.inr (List.mem_map.mpr
            (by
              obtain ⟨e', he', rfl⟩ := List.mem_map.mp h
              exact ⟨e', List.mem_cons_of_mem _ he', rfl⟩))
    · -- fresh head: nothing happens to this entry now
      have hsb : staleB timeout now e = false := decide_eq_false hst
      have hfold := janitorFold_cons_fresh timeout now e R st c hst
      obtain ⟨ihc, ihfresh, ihstale, ihmi, ihsubp, ihsubm, ihpend⟩ :=
        ih st c hndk.2 (fun e' he' => hmem e' (List.mem_cons_of_mem e he')) hmi
      rw [hfold, List.countP_cons_of_neg, List.filter_cons_of_neg]
      · refine ⟨ihc, ihfresh, ?_, ihmi, ihsubp, ihsubm, ihpend⟩
        intro e' he' hsb'
        rcases List.mem_cons.mp he' with heq | he'm
        · rw [heq] at hsb'
          rw [hsb'] at hsb
          cases hsb
        · exact ihstale e' he'm hsb'
      · simp [staleB, hst]
      · simp [staleB, hst]

theorem inv_janitor {s : QState α} (timeout now : ℚ) (hInv : Inv s) :
    Inv (janitor s timeout now).1 := by
  obtain ⟨hnd, hmi⟩ := hInv
  obtain ⟨_, hfresh, hstale, hmi', hsubp, hsubm, hpend⟩ :=
    janitorFold_spec timeout now s.meta s 0 hmi.1 (fun e he => he) hmi
  rw [List.nodup_append] at hnd
  show Inv (janitorFold timeout now s.meta s 0).1
  refine ⟨?_, hmi'⟩
  rw [List.nodup_append]
  refine ⟨?_, List.Nodup.sublist hsubp hnd.2.1, ?_⟩
  · rw [List.nodup_iff_count_le_one]
    intro t
    by_cases hts : t ∈ (s.meta.filter (staleB timeout now)).map Prod.fst
    · obtain ⟨e, he, hefst⟩ := List.mem_map.mp hts
      have heR : e ∈ s.meta := (List.mem_filter.mp he).1
      have hesb : staleB timeout now e = true := (List.mem_filter.mp he).2
      have hcnt := (hstale e heR hesb).1
      have hep : e.1 ∈ s.processing := hmi.2.2 e.1 (mem_keys.mpr ⟨e.2, heR⟩)
      have hpc : s.pending.count e.1 = 0 :=
        List.count_eq_zero.mpr (fun h => hnd.2.2 h hep)
      rw [← hefst]
      omega
    · rw [(hfresh t hts).1]
      exact List.nodup_iff_count_le_one.mp hnd.1 t
  · intro t htp htq
    by_cases hts : t ∈ (s.meta.filter (staleB timeout now)).map Prod.fst
    · obtain ⟨e, he, hefst⟩ := List.mem_map.mp hts
      have h2 := (hstale e (List.mem_filter.mp he).1 (List.mem_filter.mp he).2).2.1
      rw [hefst] at h2
      exact h2 htq
    · obtain ⟨hc1, hc2, _⟩ := hfresh t hts
      have htps : t ∈ s.pending := by
        have : 0 < (janitorFold timeout now s.meta s 0).1.pending.count t :=
          List.count_pos_iff.mpr htp
        rw [hc1] at this
        exact List.count_pos_iff.mp this
      exact hnd.2.2 htps (hc2.mp htq)

/-- A present task stays present under any operation other than a
`complete` of that task. -/
theorem present_step {s : QState α} {t : α} (hInv : Inv s) (hpres : present s t)
    (op : Op α) (hnc : ∀ u, op = .complete u → u ≠ t) :
    present (step s op) t := by
  cases op with
  | enqueue u =>
    rcases hpres with h | h
    · exact Or.inl (List.mem_append.mpr (Or.inl h))
    · exact Or.inr h
  | claim now =>
    cases hp : s.pending with
    | nil =>
      simp only [step, pop_task, hp]
      rcases hpres with h | h
      · exact Or.inl h
      · exact Or.inr h
    | cons a rest =>
      simp only [step, pop_task, hp]
      rcases hpres with h | h
      · rw [hp] at h
        rcases List.mem_cons.mp h with rfl | h
        · exact Or.inr (List.mem_append.mpr (Or.inr (List.mem_singleton.mpr rfl)))
        · exact Or.inl h
      · exact Or.inr (List.mem_append.mpr (Or.inl h))
  | complete u =>
    have hut : u ≠ t := hnc u rfl
    rcases hpres with h | h
    · exact Or.inl h
    · exact Or.inr (List.mem_filter.mpr ⟨h, decide_eq_true (Ne.symm hut)⟩)
  | recover timeout now =>
    obtain ⟨hnd, hmi⟩ := hInv
    obtain ⟨_, hfresh, hstale, _, _, _, _⟩ :=
      janitorFold_spec timeout now s.meta s 0 hmi.1 (fun e he => he) hmi
    show present (janitorFold timeout now s.meta s 0).1 t
    by_cases hts : t ∈ (s.meta.filter (staleB timeout now)).map Prod.fst
    · obtain ⟨e, he, hefst⟩ := List.mem_map.mp hts
      have h1 := (hstale e (List.mem_filter.mp he).1 (List.mem_filter.mp he).2).1
      refine Or.inl (List.count_pos_iff.mp ?_)
      rw [← hefst]
      omega
    · obtain ⟨hc1, hc2, _⟩ := hfresh t hts
      rcases hpres with h | h
      · refine Or.inl (List.count_pos_iff.mp ?_)
        rw [hc1]
        exact List.count_pos_iff.mpr h
      · exact Or.inr (hc2.mpr h)

/-- A fully-applied `complete` of an in-flight task leaves it neither
pending nor in flight. -/
theorem complete_not_present {s : QState α} {t : α} (hInv : Inv s)
    (h : t ∈ s.processing) : ¬ present (complete_task s t) t := by
  rintro (hp | hq)
  · have := hInv.1
    rw [List.nodup_append] at this
    exact this.2.2 hp h
  · simp only [complete_task, List.mem_filter, decide_eq_true_eq] at hq
    exact hq.2 rfl

theorem inv_step {s : QState α} (op : Op α) (hInv : Inv s)
    (hguard : opGuard s op = true) : Inv (step s op) := by
  cases op with
  | enqueue t =>
    simp only [opGuard, Bool.and_eq_true, decide_eq_true_eq] at hguard
    exact inv_push hInv hguard.1 hguard.2
  | claim now => exact inv_pop now hInv
  | complete t => exact inv_complete t hInv
  | recover timeout now => exact inv_janitor timeout now hInv

theorem inv_run {s : QState α} (ops : List (Op α)) (hInv : Inv s)
    (hadm : admissibleChk s ops = true) : Inv (run s ops) := by
  induction ops generalizing s with
  | nil => exact hInv
  | cons op ops ih =>
    rw [admissibleChk, Bool.and_eq_true] at hadm
    exact ih (inv_step op hInv hadm.1) hadm.2

/-- C1 counterexample: the claim quantifies over every operation
sequence, but enqueueing the same task twice and claiming once leaves
the task simultaneously in Pending and in In-flight, so "never both"
fails without an admissibility restriction. -/
theorem queue_invariant_counterexample :
    0 ∈ (run (emptyQ : QState ℕ) [.enqueue 0, .enqueue 0, .claim 0]).pending ∧
    0 ∈ (run (emptyQ : QState ℕ) [.enqueue 0, .enqueue 0, .claim 0]).processing := by
  decide

/-- C1 (amended): starting from the empty queue, along every admissible
operation sequence — one that never enqueues a task while a structurally
equal task is already present — every present task is in exactly one of
Pending or In-flight, never both, and every in-flight task has exactly
one entry in the index; moreover a present task stays present under any
operation that is not a `complete` of it, and a fully-applied `complete`
of an in-flight task leaves it in neither place. -/
theorem queue_invariant :
    (∀ ops : List (Op α), admissibleChk (emptyQ : QState α) ops = true →
      (∀ t, ¬ (t ∈ (run (emptyQ : QState α) ops).pending ∧
          t ∈ (run (emptyQ : QState α) ops).processing)) ∧
      (∀ t, t ∈ (run (emptyQ : QState α) ops).processing →
        ((run (emptyQ : QState α) ops).meta.map Prod.fst).count t = 1) ∧
      (∀ t, present (run (emptyQ : QState α) ops) t →
        (t ∈ (run (emptyQ : QState α) ops).pending ∧
            t ∉ (run (emptyQ : QState α) ops).processing) ∨
        (t ∉ (run (emptyQ : QState α) ops).pending ∧
            t ∈ (run (emptyQ : QState α) ops).processing))) ∧
    (∀ (s : QState α) (t : α) (op : Op α), Inv s → present s t →
      (∀ u, op = .complete u → u ≠ t) → present (step s op) t) ∧
    (∀ (s : QState α) (t : α), Inv s → t ∈ s.processing →
      ¬ present (complete_task s t) t) := by
  refine ⟨?_, fun s t op hi hp hnc => present_step hi hp op hnc,
    fun s t hi h => complete_not_present hi h⟩
  intro ops hadm
  obtain ⟨hnd, hmi⟩ := inv_run ops inv_empty hadm
  rw [List.nodup_append] at hnd
  refine ⟨fun t ht => hnd.2.2 ht.1 ht.2, fun t ht => ?_, fun t ht => ?_⟩
  · exact List.count_eq_one_of_mem hmi.1 (hmi.2.1 t ht)
  · rcases ht with h | h
    · exact Or.inl ⟨h, fun hq => hnd.2.2 h hq⟩
    · exact Or.inr ⟨fun hp => hnd.2.2 hp h, h⟩

/-- Witness for C1 at a concrete admissible run and concrete states. -/
theorem queue_invariant_witness :
    (∀ t, ¬ (t ∈ (run (emptyQ : QState ℕ) [.enqueue 0, .claim 0]).pending ∧
        t ∈ (run (emptyQ : QState ℕ) [.enqueue 0, .claim 0]).processing)) ∧
    present (step (⟨[], [0], [(0, 0)]⟩ : QState ℕ) (.claim 2)) 0 ∧
    ¬ present (complete_task (⟨[], [0], [(0, 0)]⟩ : QState ℕ) 0) 0 :=
  ⟨((queue_invariant (α := ℕ)).1 [.enqueue 0, .claim 0] (by decide)).1,
   (queue_invariant (α := ℕ)).2.1 ⟨[], [0], [(0, 0)]⟩ 0 (.claim 2)
     ⟨by decide, by decide, by decide, by decide⟩
     (Or.inr (by decide)) (fun u h => nomatch h),
   (queue_invariant (α := ℕ)).2.2 ⟨[], [0], [(0, 0)]⟩ 0
     ⟨by decide, by decide, by decide, by decide⟩ (by decide)⟩

/-- C2 counterexample: an entry whose claim age exactly equals the
timeout is claimed by the spec to be recovered ("age ≥ timeout"), but
the janitor's strict comparison leaves it untouched and returns 0. -/
theorem janitor_boundary_counterexample :
    janitor (⟨[], [0], [(0, 0)]⟩ : QState ℕ) 5 5 = (⟨[], [0], [(0, 0)]⟩, 0) ∧
    0 ∉ (janitor (⟨[], [0], [(0, 0)]⟩ : QState ℕ) 5 5).1.pending := by
  refine ⟨by norm_num [janitor, janitorStep], ?_⟩
  rw [show janitor (⟨[], [0], [(0, 0)]⟩ : QState ℕ) 5 5 =
      (⟨[], [0], [(0, 0)]⟩, 0) from by norm_num [janitor, janitorStep]]
  simp

/-- C2 (amended): on any queue state satisfying the invariant,
`janitor timeout now` never moves an entry whose claim age `now - start`
is at most the timeout (it stays indexed, its in-flight status and its
pending count are unchanged), moves every entry whose age is strictly
greater than the timeout exactly once back to Pending while removing it
from In-flight and clearing its index entry, and returns the number of
entries so recovered. -/
theorem janitor_recovers (s : QState α) (timeout now : ℚ) (hInv : Inv s) :
    (∀ e ∈ s.meta, now - e.2 ≤ timeout →
      e ∈ (janitor s timeout now).1.meta ∧
      (e.1 ∈ (janitor s timeout now).1.processing ↔ e.1 ∈ s.processing) ∧
      (janitor s timeout now).1.pending.count e.1 = s.pending.count e.1) ∧
    (∀ e ∈ s.meta, timeout < now - e.2 →
      (janitor s timeout now).1.pending.count e.1 = 1 ∧
      e.1 ∉ (janitor s timeout now).1.processing ∧
      e.1 ∉ (janitor s timeout now).1.meta.map Prod.fst) ∧
    (janitor s timeout now).2 = s.meta.countP (staleB timeout now) := by
  obtain ⟨hnd, hmi⟩ := hInv
  obtain ⟨hcount, hfresh, hstale, _, _, _, _⟩ :=
    janitorFold_spec timeout now s.meta s 0 hmi.1 (fun e he => he) hmi
  rw [List.nodup_append] at hnd
  rw [show janitor s timeout now = janitorFold timeout now s.meta s 0 from rfl]
  refine ⟨?_, ?_, hcount.trans (Nat.zero_add _)⟩
  · intro e he hage
    have hts : e.1 ∉ (s.meta.filter (staleB timeout now)).map Prod.fst := by
      intro h
      obtain ⟨e', he', he'fst⟩ := List.mem_map.mp h
      have he'm : e' ∈ s.meta := (List.mem_filter.mp he').1
      have he'sb : staleB timeout now e' = true := (List.mem_filter.mp he').2
      have hq : e'.2 = e.2 := by
        have hm1 : (e.1, e'.2) ∈ s.meta := by
          rw [← he'fst]
          exact he'm
        exact keys_nodup_entry_unique hmi.1 hm1 he
      rw [staleB, decide_eq_true_eq, hq] at he'sb
      exact absurd he'sb (not_lt.mpr hage)
    obtain ⟨hc1, hc2, hc3⟩ := hfresh e.1 hts
    exact ⟨(hc3 e.2).mpr he, hc2, hc1⟩
  · intro e he hage
    have hsb : staleB timeout now e = true := decide_eq_true hage
    obtain ⟨hc1, hc2, hc3⟩ := hstale e he hsb
    have hep : e.1 ∈ s.processing := hmi.2.2 e.1 (mem_keys.mpr ⟨e.2, he⟩)
    have hpc : s.pending.count e.1 = 0 :=
      List.count_eq_zero.mpr (fun h => hnd.2.2 h hep)
    exact ⟨by omega, hc2, hc3⟩

/-- Witness for C2: a fresh entry survives a janitor pass untouched and
a stale entry is recovered exactly once, on concrete states. -/
theorem janitor_recovers_witness :
    ((0, (0 : ℚ)) ∈ (janitor (⟨[5], [0], [(0, 0)]⟩ : QState ℕ) 10 6).1.meta ∧
      (0 ∈ (janitor (⟨[5], [0], [(0, 0)]⟩ : QState ℕ) 10 6).1.processing ↔
        0 ∈ ([0] : List ℕ)) ∧
      (janitor (⟨[5], [0], [(0, 0)]⟩ : QState ℕ) 10 6).1.pending.count 0 =
        ([5] : List ℕ).count 0) ∧
    ((janitor (⟨[5], [0], [(0, 0)]⟩ : QState ℕ) 5 6).1.pending.count 0 = 1 ∧
      0 ∉ (janitor (⟨[5], [0], [(0, 0)]⟩ : QState ℕ) 5 6).1.processing ∧
      0 ∉ (janitor (⟨[5], [0], [(0, 0)]⟩ : QState ℕ) 5 6).1.meta.map Prod.fst) :=
  ⟨(janitor_recovers (⟨[5], [0], [(0, 0)]⟩ : QState ℕ) 10 6
      ⟨by decide, by decide, by decide, by decide⟩).1
      (0, 0) (List.mem_singleton.mpr rfl) (by norm_num),
   (janitor_recovers (⟨[5], [0], [(0, 0)]⟩ : QState ℕ) 5 6
      ⟨by decide, by decide, by decide, by decide⟩).2.1
      (0, 0) (List.mem_singleton.mpr rfl) (by norm_num)⟩

/-- C4 counterexample: with two structurally identical tasks in flight
(obtained by enqueueing and claiming the same content twice), `complete`
removes both occurrences — LREM with count 0 — not exactly one. -/
theorem complete_task_counterexample :
    (run (emptyQ : QState ℕ)
        [.enqueue 0, .enqueue 0, .claim 0, .claim 1]).processing.count 0 = 2 ∧
    (complete_task (run (emptyQ : QState ℕ)
        [.enqueue 0, .enqueue 0, .claim 0, .claim 1]) 0).processing.count 0 = 0 := by
  decide

/-- C4 (amended): `complete` removes every occurrence of the task from
In-flight and removes its index entry, touching neither Pending nor any
other task, and a second `complete` of the same task is a no-op: it
raises nothing and changes nothing. -/
theorem complete_task_spec (s : QState α) (t : α) (_h : t ∈ s.processing) :
    (complete_task s t).processing.count t = 0 ∧
    (∀ u, u ≠ t → (complete_task s t).processing.count u = s.processing.count u) ∧
    (complete_task s t).pending = s.pending ∧
    t ∉ (complete_task s t).meta.map Prod.fst ∧
    (∀ e ∈ s.meta, e.1 ≠ t → e ∈ (complete_task s t).meta) ∧
    complete_task (complete_task s t) t = complete_task s t := by
  refine ⟨?_, ?_, rfl, ?_, ?_, ?_⟩
  · rw [List.count_eq_zero]
    intro hmem
    simp only [complete_task, List.mem_filter, decide_eq_true_eq] at hmem
    exact hmem.2 rfl
  · intro u hu
    exact List.count_filter (decide_eq_true hu)
  · intro hmem
    exact (keys_hdel.mp hmem).2 rfl
  · intro e he hne
    exact mem_hdel.mpr ⟨he, hne⟩
  · simp only [complete_task, hdel, List.filter_filter, Bool.and_self]

/-- Witness for C4 on a concrete state with a duplicate in-flight task. -/
theorem complete_task_spec_witness :
    (complete_task (⟨[], [0, 0, 1], [(0, 0)]⟩ : QState ℕ) 0).processing.count 0 = 0 ∧
    (∀ u, u ≠ 0 →
      (complete_task (⟨[], [0, 0, 1], [(0, 0)]⟩ : QState ℕ) 0).processing.count u =
        ([0, 0, 1] : List ℕ).count u) ∧
    (complete_task (⟨[], [0, 0, 1], [(0, 0)]⟩ : QState ℕ) 0).pending = [] ∧
    0 ∉ (complete_task (⟨[], [0, 0, 1], [(0, 0)]⟩ : QState ℕ) 0).meta.map Prod.fst ∧
    complete_task (complete_task (⟨[], [0, 0, 1], [(0, 0)]⟩ : QState ℕ) 0) 0 =
      complete_task (⟨[], [0, 0, 1], [(0, 0)]⟩ : QState ℕ) 0 := by
  have h := complete_task_spec (⟨[], [0, 0, 1], [(0, 0)]⟩ : QState ℕ) 0 (by decide)
  exact ⟨h.1, h.2.1, h.2.2.1, h.2.2.2.1, h.2.2.2.2.2⟩

end GeoScraper
